import Mathlib

/-!
Verification of the core of the `pdb-file-utilities` repository: the
sliding-window structure segmenter (`pdb-split-files.py`) and the residue
renumberer (`pdb-residue-index-reset.py`).  Python text lines are embedded
as `List Char`; Python slicing `s[a:b]` becomes `(List.drop a).take (b-a)`
(both clamp), `str.startswith` becomes a prefix test on character lists,
`str(n)` becomes decimal rendering of a `Nat`, and `str.rjust(4)` pads with
spaces on the left to a width of at least 4.
-/

set_option autoImplicit false

namespace PdbUtils

/-- The decimal digit character for `d` (used for `str(n)`); `d` is expected
to be below 10, as produced by `% 10`. -/
def digitChar (d : Nat) : Char :=
  [ '0', '1', '2', '3', '4', '5', '6', '7', '8', '9' ].getD d '0'

/-- Fuel-driven decimal rendering: the digits of `n`, most significant first.
The fuel is always called with a value above `n`, so it never runs out. -/
def natToCharsAux : Nat → Nat → List Char
  | 0, _ => []
  | fuel + 1, n =>
    if n < 10 then [digitChar n]
    else natToCharsAux fuel (n / 10) ++ [digitChar (n % 10)]

/-- Decimal rendering `str(n)` of a natural number `n`. -/
def natToChars (n : Nat) : List Char := natToCharsAux (n + 1) n

/-- Reads a decimal digit string back into a number (proof-side inverse of
`natToChars`). -/
def charsToNat (l : List Char) : Nat :=
  l.foldl (fun acc c => acc * 10 + (c.toNat - 48)) 0

/-- Drops leading space characters (used to read a right-justified field). -/
def dropSpaces (l : List Char) : List Char := l.dropWhile (fun c => c = ' ')

/-- Python `str.rjust (w)`: left-pad with spaces to width at least `w`. -/
def rjust (w : Nat) (s : List Char) : List Char :=
  List.replicate (w - s.length) ' ' ++ s

/-- Embeds Python `l.startswith (t)` on character lists. -/
def startsWith : List Char → List Char → Bool
  | [], _ => true
  | _ :: _, [] => false
  | c :: cs, d :: ds => c = d && startsWith cs ds

/-- The record tag `"ATOM"`. -/
def atomTag : List Char := [ 'A', 'T', 'O', 'M' ]

/-- The record tag `"TER"`. -/
def terTag : List Char := [ 'T', 'E', 'R' ]

/-- Test `line.startswith ('ATOM')` from `pdb-residue-index-reset.py`. -/
def isAtomLine (l : List Char) : Bool := startsWith atomTag l

/-- Test `line.startswith ('TER')` from `pdb-residue-index-reset.py`. -/
def isTerLine (l : List Char) : Bool := startsWith terTag l

/-- Slice `line[22:26]`: the residue-number field of an ATOM/TER line
(columns 23-26, 1-based). -/
def resField (l : List Char) : List Char := (l.drop 22).take 4

/-- Rewrite `line[:22] + f + line[26:]`: the line with its residue-number field
replaced by `f`. -/
def putField (l : List Char) (f : List Char) : List Char :=
  l.take 22 ++ f ++ l.drop 26

/-- The renumbering loop of `pdb-residue-index-reset.py`.  `cur` is
`current_residue` (initially `None`, hence `Option`), `n` is
`current_residue_number` (initially `0`).  An ATOM line has its field read;
when it differs from `cur` the counter is incremented and `cur` updated; the
field is rewritten with the counter.  A TER line updates `cur` on a differing
field but never the counter, and is rewritten with the current counter.  (In
the source the update `current_residue = residue` on an equal field is a
no-op, so `cur` becomes `some` of the field in both branches.)  All other
lines pass through.  The two `if` tests in the source are exclusive because
no line starts with both `ATOM` and `TER`. -/
def renumber : Option (List Char) → Nat → List (List Char) → List (List Char)
  | _, _, [] => []
  | cur, n, l :: rest =>
    if isAtomLine l then
      let f := resField l
      let n' := if some f = cur then n else n + 1
      putField l (rjust 4 (natToChars n')) :: renumber (some f) n' rest
    else if isTerLine l then
      let f := resField l
      putField l (rjust 4 (natToChars n)) :: renumber (some f) n rest
    else
      l :: renumber cur n rest

/-- Whole-file renumbering: the loop started from `current_residue = None`
and `current_residue_number = 0`. -/
def renumberFile (ls : List (List Char)) : List (List Char) :=
  renumber none 0 ls

/-- A line obeying the fixed-column contract: if it is an ATOM or TER record
it reaches at least column 22, so that its residue-number field lies inside
the line. -/
def goodLine (l : List Char) : Prop :=
  (isAtomLine l = true ∨ isTerLine l = true) → 22 ≤ l.length

instance (l : List Char) : Decidable (goodLine l) := by
  unfold goodLine; infer_instance

/-- The numeric value of the residue-number field of a line. -/
def fieldNum (l : List Char) : Nat := charsToNat (dropSpaces (resField l))

/-- The residue-number values carried by the ATOM lines of a file. -/
def outIds (ls : List (List Char)) : List Nat :=
  (ls.filter (fun l => isAtomLine l)).map fieldNum

/-- The raw residue-number fields of the ATOM lines of a file. -/
def atomFields (ls : List (List Char)) : List (List Char) :=
  (ls.filter (fun l => isAtomLine l)).map resField

/-- The counter values the renumbering loop assigns to a list of ATOM
residue-number fields (the ATOM branch of the loop, fields only). -/
def resetIds : Option (List Char) → Nat → List (List Char) → List Nat
  | _, _, [] => []
  | cur, n, f :: fs =>
    if some f = cur then n :: resetIds cur n fs
    else (n + 1) :: resetIds (some f) (n + 1) fs

/-- A residue of a parsed chain: its original sequence number (`resseq`,
the second component of a Biopython residue id) and its atom records. -/
structure Residue where
  resseq : Int
  atoms : List (List Char)
  deriving DecidableEq, Repr

/-- Modelled from the external collaborator `Bio.PDB.Dice.ChainSelector`
(the repository only calls it): a residue of the selected chain is accepted
exactly when its original sequence number lies in `[start, stop]`,
inclusive at both ends.  Selection is by sequence identifier, not by
ordinal position. -/
def accept_residue (start stop : Int) (r : Residue) : Bool :=
  decide (start ≤ r.resseq) && decide (r.resseq ≤ stop)

/-- The residues of a chain kept by `ChainSelector (chain_id, start, stop)`:
the serialization writes exactly the accepted residues, in chain order. -/
def selectChain (start stop : Int) (chain : List Residue) : List Residue :=
  chain.filter (accept_residue start stop)

/-- The contents of the window file written for a given `start`: the call
site is `ChainSelector (chain_id, start, start + 8)`. -/
def windowFile (chain : List Residue) (s : Nat) : List Residue :=
  selectChain (s : Int) ((s : Int) + 8) chain

/-- The per-chain residue loop of `pdb-split-files.py`, emitting the window
start values.  `L` is the chain length computed before the loop; `s` is the
running `start` counter, incremented once per residue; the loop breaks as
soon as `s + 8 > L` after the increment.  Note that the caller does not
reset `s` between chains (it is zeroed once per file in the source). -/
def chainLoop (L : Nat) : Nat → List Residue → List Nat
  | _, [] => []
  | s, _ :: rest =>
    if s + 1 + 8 > L then [] else (s + 1) :: chainLoop L (s + 1) rest

/-- The value of the `start` counter when the per-chain loop of
`pdb-split-files.py` finishes (by running out of residues or breaking). -/
def chainFinal (L : Nat) : Nat → List Residue → Nat
  | s, [] => s
  | s, _ :: rest =>
    if s + 1 + 8 > L then s + 1 else chainFinal L (s + 1) rest

/-- The chain iteration of `pdb-split-files.py` for one file: the `start`
counter is threaded through the chains (it is initialised once per file),
and each chain contributes the list of window starts it emits. -/
def fileChains : Nat → List (List Residue) → List (List Nat)
  | _, [] => []
  | s, c :: cs => chainLoop c.length s c :: fileChains (chainFinal c.length s c) cs

/-- Window starts emitted for each chain of one file, in order, with the
counter starting at 0 as in the source (`count = start = length = 0`). -/
def segmentFile (chains : List (List Residue)) : List (List Nat) :=
  fileChains 0 chains

/-- A file store keyed by the window start (the output path
`file_prefix + '_' + str(start) + '.pdb'` is determined by `start`). -/
def writeFile (σ : Nat → Option (List Residue)) (p : Nat) (c : List Residue) :
    Nat → Option (List Residue) :=
  fun q => if q = p then some c else σ q

/-- The inner `for count in range(start, start + 8)` loop of
`pdb-split-files.py`: each of its 8 iterations rebuilds the same selection
and the same output path from `start` alone and saves the window again. -/
def innerWriteLoop (chain : List Residue) (s : Nat)
    (σ : Nat → Option (List Residue)) : Nat → Option (List Residue) :=
  (List.range' s 8).foldl (fun σ' _ => writeFile σ' s (windowFile chain s)) σ

/-- Per-line shape of the renumbering rewrite: record kinds are preserved,
non-ATOM/TER lines pass through byte-identical, and an ATOM/TER line keeps
every byte outside columns 23-26 while the field becomes the 4-character
right-justified text of some counter value. -/
def renumRel (l l' : List Char) : Prop :=
  isAtomLine l' = isAtomLine l ∧ isTerLine l' = isTerLine l ∧
  (isAtomLine l = false → isTerLine l = false → l' = l) ∧
  ((isAtomLine l = true ∨ isTerLine l = true) →
    l'.take 22 = l.take 22 ∧ l'.drop 26 = l.drop 26 ∧
    ∃ m, m ≤ 9999 ∧ resField l' = rjust 4 (natToChars m) ∧
      (rjust 4 (natToChars m)).length = 4)

/-- One renumbering step on the (original field, assigned number) stream:
the number assigned to a line equals the previous number when the original
field repeats and the successor of the previous number when it changes. -/
def stepRel (p q : List Char × Nat) : Prop :=
  q.2 = if q.1 = p.1 then p.2 else p.2 + 1

/-- Adjacent assigned numbers are equal or go up by exactly one. -/
def incStep (a b : Nat) : Prop := b = a ∨ b = a + 1

/-- A decimal digit character. -/
def isDigitChar (c : Char) : Bool := decide ('0' ≤ c) && decide (c ≤ '9')

/-- Models Python `int (s)` acceptance: after stripping surrounding spaces
and an optional single sign, a nonempty run of decimal digits remains. -/
def intText (l : List Char) : Bool :=
  let t := ((dropSpaces l).reverse.dropWhile (fun c => c = ' ')).reverse
  let d := if t.head? = some '-' ∨ t.head? = some '+' then t.tail else t
  !d.isEmpty && d.all isDigitChar

/-- A 26-column ATOM line with residue-number field `   5`. -/
def lineA5 : List Char := "ATOM                     5".toList

/-- A 26-column ATOM line with residue-number field `   9`. -/
def lineA9 : List Char := "ATOM                     9".toList

/-- A 26-column ATOM line with residue-number field `  12`. -/
def lineA12 : List Char := "ATOM                    12".toList

/-- A 26-column ATOM line with residue-number field `   7` and a tail. -/
def lineA7 : List Char := "ATOM                     7 N CA".toList

/-- A 26-column TER line with residue-number field `   7`. -/
def lineT7 : List Char := "TER                      7".toList

/-- A line that is neither an ATOM nor a TER record. -/
def lineRemark : List Char := "REMARK   2 RESOLUTION".toList

/-- A 4-character ATOM line (shorter than column 22). -/
def lineAtomBare : List Char := "ATOM".toList

/-- A 24-character ATOM line whose bytes at positions 22-23 are `XY`. -/
def lineA24 : List Char := "ATOM                  XY".toList

/-- A 26-column ATOM line whose residue-number field `xxxx` is not parseable
as an integer. -/
def lineAxxxx : List Char := "ATOM                  xxxx".toList

/-- A chain of 9 residues numbered contiguously from 1. -/
def chain9 : List Residue := (List.range' 1 9).map (fun i => Residue.mk (Int.ofNat i) [])

/-- A chain of 10 residues numbered contiguously from 1. -/
def chain10 : List Residue := (List.range' 1 10).map (fun i => Residue.mk (Int.ofNat i) [])

/-- A chain of 11 residues whose original numbering starts at 100. -/
def chainOff : List Residue :=
  (List.range' 100 11).map (fun i => Residue.mk (Int.ofNat i) [])

/-- A chain of 5 residues numbered contiguously from 1. -/
def chain5 : List Residue := (List.range' 1 5).map (fun i => Residue.mk (Int.ofNat i) [])

/-- A 4-character TER line carrying its line terminator. -/
def lineTerNl : List Char := "TER\n".toList

section DigitLemmas

theorem digitChar_toNat {d : Nat} (h : d < 10) : (digitChar d).toNat = 48 + d := by
  interval_cases d <;> rfl

theorem digitChar_ne_space {d : Nat} (h : d < 10) : digitChar d ≠ ' ' := by
  interval_cases d <;> decide

theorem charsToNat_append_digit (xs : List Char) (c : Char) :
    charsToNat (xs ++ [c]) = charsToNat xs * 10 + (c.toNat - 48) := by
  simp [charsToNat, List.foldl_append]

theorem charsToNat_natToCharsAux :
    ∀ fuel n, n < fuel → charsToNat (natToCharsAux fuel n) = n := by
  intro fuel
  induction fuel with
  | zero => intro n h; omega
  | succ fuel ih =>
    intro n h
    rw [natToCharsAux]
    split
    · next hlt =>
      simp only [charsToNat, List.foldl_cons, List.foldl_nil]
      rw [digitChar_toNat hlt]; omega
    · next hge =>
      have hdiv : n / 10 < n := Nat.div_lt_self (by omega) (by norm_num)
      rw [charsToNat_append_digit, ih (n / 10) (by omega),
        digitChar_toNat (Nat.mod_lt _ (by norm_num))]
      have := Nat.div_add_mod n 10
      omega

theorem charsToNat_natToChars (n : Nat) : charsToNat (natToChars n) = n :=
  charsToNat_natToCharsAux _ n (Nat.lt_succ_self n)

theorem natToCharsAux_head :
    ∀ fuel n, n < fuel → ∃ d t, d < 10 ∧ natToCharsAux fuel n = digitChar d :: t := by
  intro fuel
  induction fuel with
  | zero => intro n h; omega
  | succ fuel ih =>
    intro n h
    rw [natToCharsAux]
    split
    · next hlt => exact ⟨n, [], hlt, rfl⟩
    · next hge =>
      have hdiv : n / 10 < n := Nat.div_lt_self (by omega) (by norm_num)
      obtain ⟨d, t, hd, heq⟩ := ih (n / 10) (by omega)
      exact ⟨d, t ++ [digitChar (n % 10)], hd, by rw [heq]; rfl⟩

theorem natToChars_head (n : Nat) :
    ∃ d t, d < 10 ∧ natToChars n = digitChar d :: t :=
  natToCharsAux_head _ n (Nat.lt_succ_self n)

theorem dropSpaces_replicate_cons (k : Nat) (c : Char) (t : List Char) (h : c ≠ ' ') :
    dropSpaces (List.replicate k ' ' ++ (c :: t)) = c :: t := by
  induction k with
  | zero => simp [dropSpaces, List.dropWhile_cons, h]
  | succ k ih => simpa [dropSpaces, List.replicate_succ] using ih

theorem dropSpaces_rjust_natToChars (w n : Nat) :
    dropSpaces (rjust w (natToChars n)) = natToChars n := by
  obtain ⟨d, t, hd, heq⟩ := natToChars_head n
  rw [rjust, heq]
  exact dropSpaces_replicate_cons _ _ _ (digitChar_ne_space hd)

theorem rjust_natToChars_inj {a b : Nat}
    (h : rjust 4 (natToChars a) = rjust 4 (natToChars b)) : a = b := by
  have ha := dropSpaces_rjust_natToChars 4 a
  have hb := dropSpaces_rjust_natToChars 4 b
  rw [h, hb] at ha
  calc a = charsToNat (natToChars a) := (charsToNat_natToChars a).symm
    _ = charsToNat (natToChars b) := by rw [ha]
    _ = b := charsToNat_natToChars b

theorem rjust_length (w : Nat) (s : List Char) :
    (rjust w s).length = max w s.length := by
  simp [rjust]; omega

theorem natToCharsAux_length :
    ∀ fuel n k, n < fuel → n < 10 ^ k → 1 ≤ k → (natToCharsAux fuel n).length ≤ k := by
  intro fuel
  induction fuel with
  | zero => intro n k h; omega
  | succ fuel ih =>
    intro n k h hk h1
    rw [natToCharsAux]
    split
    · next hlt => simpa using h1
    · next hge =>
      have hdiv : n / 10 < n := Nat.div_lt_self (by omega) (by norm_num)
      have hk2 : 2 ≤ k := by
        by_contra hc
        have : k = 1 := by omega
        subst this
        simp at hk
        omega
      have hpow : 10 ^ k = 10 ^ (k - 1) * 10 := by
        rw [← pow_succ]
        congr 1
        omega
      have hdivpow : n / 10 < 10 ^ (k - 1) := by
        rw [Nat.div_lt_iff_lt_mul (by norm_num)]
        omega
      have := ih (n / 10) (k - 1) (by omega) hdivpow (by omega)
      simp only [List.length_append, List.length_cons, List.length_nil]
      omega

theorem natToChars_length_le {n : Nat} (h : n ≤ 9999) :
    (natToChars n).length ≤ 4 :=
  natToCharsAux_length _ n 4 (Nat.lt_succ_self n) (by norm_num; omega) (by norm_num)

theorem rjust_natToChars_length {n : Nat} (h : n ≤ 9999) :
    (rjust 4 (natToChars n)).length = 4 := by
  rw [rjust_length]
  have := natToChars_length_le h
  omega

end DigitLemmas

section LineLemmas

theorem startsWith_append : ∀ (t l r : List Char), t.length ≤ l.length →
    startsWith t (l ++ r) = startsWith t l
  | [], _, _, _ => rfl
  | c :: cs, [], r, h => by simp at h
  | c :: cs, d :: ds, r, h => by
    simp only [List.cons_append, startsWith, List.append_eq]
    rw [startsWith_append cs ds r (by simpa using h)]

theorem startsWith_take : ∀ (t l : List Char) (k : Nat), t.length ≤ k →
    startsWith t (l.take k) = startsWith t l
  | [], _, _, _ => by simp [startsWith]
  | c :: cs, [], k, h => by simp
  | c :: cs, d :: ds, 0, h => by simp at h
  | c :: cs, d :: ds, k + 1, h => by
    simp only [List.take_succ_cons, startsWith]
    rw [startsWith_take cs ds k (by simpa using h)]

theorem startsWith_putField (t l f : List Char)
    (ht : t.length ≤ 22) (hl : 22 ≤ l.length) :
    startsWith t (putField l f) = startsWith t l := by
  have h22 : (l.take 22).length = 22 := by simp; omega
  rw [putField, List.append_assoc,
    startsWith_append t _ _ (by rw [h22]; exact ht),
    startsWith_take t l 22 ht]

theorem isAtomLine_putField {l f : List Char} (hl : 22 ≤ l.length) :
    isAtomLine (putField l f) = isAtomLine l :=
  startsWith_putField atomTag l f (by decide) hl

theorem isTerLine_putField {l f : List Char} (hl : 22 ≤ l.length) :
    isTerLine (putField l f) = isTerLine l :=
  startsWith_putField terTag l f (by decide) hl

theorem ter_not_atom {l : List Char} (h : isTerLine l = true) :
    isAtomLine l = false := by
  cases l with
  | nil => simp [isTerLine, terTag, startsWith] at h
  | cons c cs =>
    simp only [isTerLine, terTag, startsWith, Bool.and_eq_true, decide_eq_true_eq] at h
    obtain ⟨hc, -⟩ := h
    subst hc
    simp [isAtomLine, atomTag, startsWith]

theorem resField_putField {l f : List Char} (hl : 22 ≤ l.length) (hf : f.length = 4) :
    resField (putField l f) = f := by
  have h22 : (l.take 22).length = 22 := by simp; omega
  rw [resField, putField, List.append_assoc, List.drop_left' h22,
    List.take_append_of_le_length (by omega), List.take_of_length_le (by omega)]

theorem take22_putField {l f : List Char} (hl : 22 ≤ l.length) :
    (putField l f).take 22 = l.take 22 := by
  have h22 : (l.take 22).length = 22 := by simp; omega
  rw [putField, List.append_assoc, List.take_left' h22]

theorem drop26_putField {l f : List Char} (hl : 22 ≤ l.length) (hf : f.length = 4) :
    (putField l f).drop 26 = l.drop 26 := by
  have h26 : (l.take 22 ++ f).length = 26 := by simp [hf]; omega
  rw [putField, List.drop_left' h26]

theorem putField_short {l f : List Char} (hl : l.length ≤ 22) :
    putField l f = l ++ f := by
  rw [putField, List.take_of_length_le hl, List.drop_eq_nil_iff.mpr (by omega),
    List.append_nil]

theorem renumber_atom (cur : Option (List Char)) (n : Nat) (l : List Char)
    (rest : List (List Char)) (h : isAtomLine l = true) :
    renumber cur n (l :: rest) =
      putField l (rjust 4 (natToChars (if some (resField l) = cur then n else n + 1))) ::
        renumber (some (resField l)) (if some (resField l) = cur then n else n + 1) rest := by
  simp [renumber, h]

theorem renumber_ter (cur : Option (List Char)) (n : Nat) (l : List Char)
    (rest : List (List Char)) (h : isTerLine l = true) :
    renumber cur n (l :: rest) =
      putField l (rjust 4 (natToChars n)) :: renumber (some (resField l)) n rest := by
  simp [renumber, ter_not_atom h, h]

theorem renumber_other (cur : Option (List Char)) (n : Nat) (l : List Char)
    (rest : List (List Char)) (ha : isAtomLine l = false) (ht : isTerLine l = false) :
    renumber cur n (l :: rest) = l :: renumber cur n rest := by
  simp [renumber, ha, ht]

end LineLemmas

section RenumberLemmas

theorem not_atom_of_not_true {l : List Char} (h : ¬isAtomLine l = true) :
    isAtomLine l = false := by
  cases hb : isAtomLine l
  · rfl
  · exact absurd hb h

theorem not_ter_of_not_true {l : List Char} (h : ¬isTerLine l = true) :
    isTerLine l = false := by
  cases hb : isTerLine l
  · rfl
  · exact absurd hb h

theorem renumber_forall₂ :
    ∀ (ls : List (List Char)) (cur : Option (List Char)) (n : Nat),
      (∀ l ∈ ls, goodLine l) → n + ls.length ≤ 9999 →
      List.Forall₂ renumRel ls (renumber cur n ls) := by
  intro ls
  induction ls with
  | nil => intro cur n _ _; exact List.Forall₂.nil
  | cons l rest ih =>
    intro cur n hg hb
    have hgrest : ∀ x ∈ rest, goodLine x := fun x hx => hg x (List.mem_cons_of_mem l hx)
    have hlen : rest.length + 1 = (l :: rest).length := by simp
    by_cases ha : isAtomLine l = true
    · have hl : 22 ≤ l.length := hg l (List.mem_cons_self l rest) (Or.inl ha)
      rw [renumber_atom cur n l rest ha]
      have hn'le : (if some (resField l) = cur then n else n + 1) ≤ 9999 := by
        split <;> simp at hb <;> omega
      have hn'lt : (if some (resField l) = cur then n else n + 1) ≤ n + 1 := by
        split <;> omega
      have hf4 : (rjust 4 (natToChars (if some (resField l) = cur then n else n + 1))).length = 4 :=
        rjust_natToChars_length hn'le
      refine List.Forall₂.cons ⟨isAtomLine_putField hl, isTerLine_putField hl, ?_, ?_⟩
        (ih (some (resField l)) _ hgrest (by simp at hb ⊢; omega))
      · intro hfa _; rw [ha] at hfa; cases hfa
      · intro _
        exact ⟨take22_putField hl, drop26_putField hl hf4, _, hn'le,
          resField_putField hl hf4, hf4⟩
    · by_cases ht : isTerLine l = true
      · have hl : 22 ≤ l.length := hg l (List.mem_cons_self l rest) (Or.inr ht)
        rw [renumber_ter cur n l rest ht]
        have hnle : n ≤ 9999 := by simp at hb; omega
        have hf4 : (rjust 4 (natToChars n)).length = 4 := rjust_natToChars_length hnle
        refine List.Forall₂.cons ⟨isAtomLine_putField hl, isTerLine_putField hl, ?_, ?_⟩
          (ih (some (resField l)) n hgrest (by simp at hb ⊢; omega))
        · intro _ hft; rw [ht] at hft; cases hft
        · intro _
          exact ⟨take22_putField hl, drop26_putField hl hf4, n, hnle,
            resField_putField hl hf4, hf4⟩
      · rw [renumber_other cur n l rest (not_atom_of_not_true ha) (not_ter_of_not_true ht)]
        refine List.Forall₂.cons ⟨rfl, rfl, fun _ _ => rfl, ?_⟩
          (ih cur n hgrest (by simp at hb ⊢; omega))
        intro hor
        rcases hor with h | h
        · exact absurd h ha
        · exact absurd h ht

end RenumberLemmas

section CounterLemmas

theorem resetIds_length :
    ∀ (fs : List (List Char)) (cur : Option (List Char)) (n : Nat),
      (resetIds cur n fs).length = fs.length := by
  intro fs
  induction fs with
  | nil => intro cur n; rfl
  | cons f fs ih =>
    intro cur n
    rw [resetIds]
    split <;> simp [ih]

theorem resetIds_chain :
    ∀ (fs : List (List Char)) (g : List Char) (n : Nat),
      List.Chain stepRel (g, n) (fs.zip (resetIds (some g) n fs)) := by
  intro fs
  induction fs with
  | nil => intro g n; exact List.Chain.nil
  | cons f fs ih =>
    intro g n
    rw [resetIds]
    by_cases h : f = g
    · subst h
      rw [if_pos rfl]
      rw [List.zip_cons_cons]
      exact List.Chain.cons (by simp [stepRel]) (ih f n)
    · rw [if_neg (fun hc => h (Option.some_inj.mp hc))]
      rw [List.zip_cons_cons]
      exact List.Chain.cons (by simp [stepRel, h]) (ih f (n + 1))

theorem resetIds_head (f : List Char) (fs : List (List Char)) :
    resetIds none 0 (f :: fs) = 1 :: resetIds (some f) 1 fs := by
  rw [resetIds, if_neg (by simp)]

theorem resetIds_chain' (fs : List (List Char)) :
    List.Chain' stepRel (fs.zip (resetIds none 0 fs)) := by
  cases fs with
  | nil => simp
  | cons f fs =>
    rw [resetIds_head, List.zip_cons_cons]
    show List.Chain stepRel (f, 1) (fs.zip (resetIds (some f) 1 fs))
    exact resetIds_chain fs f 1

theorem resetIds_incChain (fs : List (List Char)) :
    List.Chain' incStep (resetIds none 0 fs) := by
  have hlen : (resetIds none 0 fs).length ≤ fs.length := by
    rw [resetIds_length]
  have hmap : (fs.zip (resetIds none 0 fs)).map Prod.snd = resetIds none 0 fs :=
    List.map_snd_zip fs _ hlen
  have hchain : List.Chain' (fun p q : List Char × Nat => incStep p.2 q.2)
      (fs.zip (resetIds none 0 fs)) := by
    refine (resetIds_chain' fs).imp ?_
    intro p q hpq
    rw [stepRel] at hpq
    rw [incStep]
    split at hpq
    · exact Or.inl hpq
    · exact Or.inr hpq
  rw [← hmap]
  exact (List.chain'_map Prod.snd).mpr hchain

theorem outIds_renumber_noTer :
    ∀ (ls : List (List Char)) (cur : Option (List Char)) (n : Nat),
      (∀ l ∈ ls, goodLine l) → (∀ l ∈ ls, isTerLine l = false) →
      n + ls.length ≤ 9999 →
      outIds (renumber cur n ls) = resetIds cur n (atomFields ls) := by
  intro ls
  induction ls with
  | nil => intro cur n _ _ _; rfl
  | cons l rest ih =>
    intro cur n hg ht hb
    have hgrest : ∀ x ∈ rest, goodLine x := fun x hx => hg x (List.mem_cons_of_mem l hx)
    have htrest : ∀ x ∈ rest, isTerLine x = false :=
      fun x hx => ht x (List.mem_cons_of_mem l hx)
    by_cases ha : isAtomLine l = true
    · have hl : 22 ≤ l.length := hg l (List.mem_cons_self l rest) (Or.inl ha)
      rw [renumber_atom cur n l rest ha]
      have hn'le : (if some (resField l) = cur then n else n + 1) ≤ 9999 := by
        split <;> simp at hb <;> omega
      have hf4 : (rjust 4 (natToChars (if some (resField l) = cur then n else n + 1))).length = 4 :=
        rjust_natToChars_length hn'le
      have hax : isAtomLine
          (putField l (rjust 4 (natToChars (if some (resField l) = cur then n else n + 1)))) = true := by
        rw [isAtomLine_putField hl]; exact ha
      have hnum : fieldNum
          (putField l (rjust 4 (natToChars (if some (resField l) = cur then n else n + 1)))) =
          (if some (resField l) = cur then n else n + 1) := by
        rw [fieldNum, resField_putField hl hf4, dropSpaces_rjust_natToChars,
          charsToNat_natToChars]
      have hAF : atomFields (l :: rest) = resField l :: atomFields rest := by
        simp [atomFields, List.filter_cons, ha]
      have hout : outIds
          (putField l (rjust 4 (natToChars (if some (resField l) = cur then n else n + 1))) ::
            renumber (some (resField l)) (if some (resField l) = cur then n else n + 1) rest) =
          (if some (resField l) = cur then n else n + 1) ::
            outIds (renumber (some (resField l)) (if some (resField l) = cur then n else n + 1) rest) := by
        simp [outIds, List.filter_cons, hax, hnum]
      rw [hout, hAF, resetIds]
      by_cases hc : some (resField l) = cur
      · rw [if_pos hc, if_pos hc, ← hc,
          ih (some (resField l)) n hgrest htrest (by simp at hb ⊢; omega)]
      · rw [if_neg hc, if_neg hc,
          ih (some (resField l)) (n + 1) hgrest htrest (by simp at hb ⊢; omega)]
    · have ht' : isTerLine l = false := ht l (List.mem_cons_self l rest)
      rw [renumber_other cur n l rest (not_atom_of_not_true ha) ht']
      have ha' : isAtomLine l = false := not_atom_of_not_true ha
      have hout : outIds (l :: renumber cur n rest) = outIds (renumber cur n rest) := by
        simp [outIds, List.filter_cons, ha']
      have hAF : atomFields (l :: rest) = atomFields rest := by
        simp [atomFields, List.filter_cons, ha']
      rw [hout, hAF, ih cur n hgrest htrest (by simp at hb ⊢; omega)]

end CounterLemmas

section IdemLemmas

theorem putField_putField {l f : List Char} (hl : 22 ≤ l.length) (hf : f.length = 4) :
    putField (putField l f) f = putField l f := by
  show (putField l f).take 22 ++ f ++ (putField l f).drop 26 = putField l f
  rw [take22_putField hl, drop26_putField hl hf]
  rfl

theorem renumber_idem_aux :
    ∀ (ls : List (List Char)) (cur₁ cur₂ : Option (List Char)) (n : Nat),
      ((cur₁ = none ∧ cur₂ = none) ∨ cur₂ = some (rjust 4 (natToChars n))) →
      (∀ l ∈ ls, goodLine l) → n + ls.length ≤ 9999 →
      renumber cur₂ n (renumber cur₁ n ls) = renumber cur₁ n ls := by
  intro ls
  induction ls with
  | nil => intro cur₁ cur₂ n _ _ _; rfl
  | cons l rest ih =>
    intro cur₁ cur₂ n hinv hg hb
    have hgrest : ∀ x ∈ rest, goodLine x := fun x hx => hg x (List.mem_cons_of_mem l hx)
    have hbl : n + rest.length + 1 ≤ 9999 := by simp at hb; omega
    by_cases ha : isAtomLine l = true
    · have hl : 22 ≤ l.length := hg l (List.mem_cons_self l rest) (Or.inl ha)
      rw [renumber_atom cur₁ n l rest ha]
      have hn'le : (if some (resField l) = cur₁ then n else n + 1) ≤ 9999 := by
        split <;> omega
      have hf4 : (rjust 4 (natToChars (if some (resField l) = cur₁ then n else n + 1))).length = 4 :=
        rjust_natToChars_length hn'le
      have hay : isAtomLine
          (putField l (rjust 4 (natToChars (if some (resField l) = cur₁ then n else n + 1)))) = true := by
        rw [isAtomLine_putField hl]; exact ha
      have hry : resField
          (putField l (rjust 4 (natToChars (if some (resField l) = cur₁ then n else n + 1)))) =
          rjust 4 (natToChars (if some (resField l) = cur₁ then n else n + 1)) :=
        resField_putField hl hf4
      rw [renumber_atom cur₂ n _ _ hay]
      have hm : (if some (resField
            (putField l (rjust 4 (natToChars (if some (resField l) = cur₁ then n else n + 1))))) = cur₂
          then n else n + 1) = (if some (resField l) = cur₁ then n else n + 1) := by
        rw [hry]
        rcases hinv with ⟨h1, h2⟩ | h2
        · subst h1; subst h2
          simp
        · subst h2
          by_cases hc : some (resField l) = cur₁
          · rw [if_pos hc, if_pos rfl]
          · rw [if_neg hc]
            have hne : ¬(some (rjust 4 (natToChars (n + 1))) =
                some (rjust 4 (natToChars n))) := by
              intro hcc
              have := rjust_natToChars_inj (Option.some_inj.mp hcc)
              omega
            rw [if_neg hne]
      rw [hm, hry, putField_putField hl hf4]
      have hrec := ih (some (resField l))
        (some (rjust 4 (natToChars (if some (resField l) = cur₁ then n else n + 1))))
        (if some (resField l) = cur₁ then n else n + 1)
        (Or.inr rfl) hgrest (by split <;> omega)
      rw [hrec]
    · by_cases ht : isTerLine l = true
      · have hl : 22 ≤ l.length := hg l (List.mem_cons_self l rest) (Or.inr ht)
        rw [renumber_ter cur₁ n l rest ht]
        have hnle : n ≤ 9999 := by omega
        have hf4 : (rjust 4 (natToChars n)).length = 4 := rjust_natToChars_length hnle
        have hty : isTerLine (putField l (rjust 4 (natToChars n))) = true := by
          rw [isTerLine_putField hl]; exact ht
        have hry : resField (putField l (rjust 4 (natToChars n))) = rjust 4 (natToChars n) :=
          resField_putField hl hf4
        rw [renumber_ter cur₂ n _ _ hty, putField_putField hl hf4, hry]
        have hrec := ih (some (resField l)) (some (rjust 4 (natToChars n))) n
          (Or.inr rfl) hgrest (by omega)
        rw [hrec]
      · have ha' : isAtomLine l = false := not_atom_of_not_true ha
        have ht' : isTerLine l = false := not_ter_of_not_true ht
        rw [renumber_other cur₁ n l rest ha' ht', renumber_other cur₂ n l _ ha' ht',
          ih cur₁ cur₂ n hinv hgrest (by omega)]

end IdemLemmas

section SegmenterLemmas

theorem chainLoop_eq :
    ∀ (res : List Residue) (s L : Nat), s + res.length = L →
      chainLoop L s res = List.range' (s + 1) (L - 8 - s) := by
  intro res
  induction res with
  | nil =>
    intro s L h
    simp only [List.length_nil, Nat.add_zero] at h
    rw [chainLoop, show L - 8 - s = 0 by omega]
    rfl
  | cons r res ih =>
    intro s L h
    simp only [List.length_cons] at h
    rw [chainLoop]
    split
    · next hbr => rw [show L - 8 - s = 0 by omega]; rfl
    · next hbr =>
      rw [ih (s + 1) L (by omega), show L - 8 - s = (L - 8 - (s + 1)) + 1 by omega,
        List.range'_succ]

theorem chainLoop_eq' :
    ∀ (res : List Residue) (s L : Nat),
      chainLoop L s res = List.range' (s + 1) (min (L - 8 - s) res.length) := by
  intro res
  induction res with
  | nil =>
    intro s L
    rw [chainLoop, List.length_nil, Nat.min_zero]
    rfl
  | cons r res ih =>
    intro s L
    rw [chainLoop]
    split
    · next hbr =>
      rw [show min (L - 8 - s) (r :: res).length = 0 by simp; omega]
      rfl
    · next hbr =>
      rw [ih (s + 1) L, show (r :: res).length = res.length + 1 from rfl,
        show min (L - 8 - s) (res.length + 1) = min (L - 8 - (s + 1)) res.length + 1 by omega,
        List.range'_succ]

theorem countP_range'_between (a b L : Nat) (h1 : 1 ≤ a) (hab : a ≤ b) (hbL : b ≤ L) :
    (List.range' 1 L).countP (fun i => decide (a ≤ i) && decide (i ≤ b)) = b + 1 - a := by
  have hsplit1 : List.range' 1 b = List.range' 1 (a - 1) ++ List.range' a (b + 1 - a) := by
    have h := List.range'_append_1 1 (a - 1) (b + 1 - a)
    rw [show 1 + (a - 1) = a by omega, show b + 1 - a + (a - 1) = b by omega] at h
    exact h.symm
  have hsplit2 : List.range' 1 L = List.range' 1 b ++ List.range' (b + 1) (L - b) := by
    have h := List.range'_append_1 1 b (L - b)
    rw [show 1 + b = b + 1 by omega, show L - b + b = L by omega] at h
    exact h.symm
  rw [hsplit2, hsplit1, List.countP_append, List.countP_append]
  have c1 : (List.range' 1 (a - 1)).countP
      (fun i => decide (a ≤ i) && decide (i ≤ b)) = 0 := by
    rw [List.countP_eq_zero]
    intro i hi
    rw [List.mem_range'] at hi
    obtain ⟨j, hj, rfl⟩ := hi
    simp only [Bool.and_eq_true, decide_eq_true_eq, not_and]
    omega
  have c2 : (List.range' a (b + 1 - a)).countP
      (fun i => decide (a ≤ i) && decide (i ≤ b)) = b + 1 - a := by
    have hall : ∀ i ∈ List.range' a (b + 1 - a),
        (decide (a ≤ i) && decide (i ≤ b)) = true := by
      intro i hi
      rw [List.mem_range'] at hi
      obtain ⟨j, hj, rfl⟩ := hi
      simp only [Bool.and_eq_true, decide_eq_true_eq]
      omega
    rw [List.countP_eq_length.mpr hall, List.length_range']
  have c3 : (List.range' (b + 1) (L - b)).countP
      (fun i => decide (a ≤ i) && decide (i ≤ b)) = 0 := by
    rw [List.countP_eq_zero]
    intro i hi
    rw [List.mem_range'] at hi
    obtain ⟨j, hj, rfl⟩ := hi
    simp only [Bool.and_eq_true, decide_eq_true_eq, not_and]
    omega
  rw [c1, c2, c3]
  omega

theorem filter_length_of_contig (chain : List Residue) (L a b : Nat)
    (hmap : chain.map Residue.resseq = (List.range' 1 L).map (fun i : Nat => (i : Int)))
    (P : Residue → Bool)
    (hP : P = (fun r => decide ((a : Int) ≤ r.resseq) && decide (r.resseq ≤ (b : Int))))
    (h1 : 1 ≤ a) (hab : a ≤ b) (hbL : b ≤ L) :
    (chain.filter P).length = b + 1 - a := by
  rw [← List.countP_eq_length_filter, hP]
  have hmapct : chain.countP
      (fun r => decide ((a : Int) ≤ r.resseq) && decide (r.resseq ≤ (b : Int))) =
      (chain.map Residue.resseq).countP
        (fun x : Int => decide ((a : Int) ≤ x) && decide (x ≤ (b : Int))) := by
    rw [List.countP_map]
    rfl
  rw [hmapct, hmap, List.countP_map]
  have hcast : ((fun x : Int => decide ((a : Int) ≤ x) && decide (x ≤ (b : Int))) ∘
      (fun i : Nat => (i : Int))) = (fun i : Nat => decide (a ≤ i) && decide (i ≤ b)) := by
    funext i
    simp [Function.comp, Nat.cast_le]
  rw [hcast]
  exact countP_range'_between a b L h1 hab hbL

theorem decide_mem_windowFile (chain : List Residue) (s : Nat) (r : Residue)
    (hr : r ∈ chain) :
    decide (r ∈ windowFile chain s) = accept_residue (s : Int) ((s : Int) + 8) r := by
  cases hq : accept_residue (s : Int) ((s : Int) + 8) r
  · refine decide_eq_false ?_
    intro hmem
    rw [windowFile, selectChain, List.mem_filter] at hmem
    rw [hmem.2] at hq
    cases hq
  · exact decide_eq_true (by rw [windowFile, selectChain, List.mem_filter]; exact ⟨hr, hq⟩)

theorem windowFile_overlap (chain : List Residue) (s : Nat) :
    (windowFile chain s).filter (fun r => decide (r ∈ windowFile chain (s + 1))) =
      chain.filter (fun r =>
        accept_residue ((s + 1 : Nat) : Int) (((s + 1 : Nat) : Int) + 8) r &&
          accept_residue (s : Int) ((s : Int) + 8) r) := by
  have hcong : (windowFile chain s).filter (fun r => decide (r ∈ windowFile chain (s + 1))) =
      (windowFile chain s).filter
        (fun r => accept_residue ((s + 1 : Nat) : Int) (((s + 1 : Nat) : Int) + 8) r) := by
    apply List.filter_congr
    intro r hr
    have hrc : r ∈ chain := by
      rw [windowFile, selectChain, List.mem_filter] at hr
      exact hr.1
    exact decide_mem_windowFile chain (s + 1) r hrc
  rw [hcong, windowFile, selectChain, List.filter_filter]

end SegmenterLemmas

section RenumberClaims

/-- Claim C2 counterexample: the claim fails as stated.  In the good
fixed-column file `[TER ...7, ATOM ...7]` the TER record updates the current
identifier to `   7`, so the following ATOM record with the same original
field does not trigger an increment and is written with residue number `0`:
the ATOM identifiers do not begin at 1. -/
theorem claim_C2_cex :
    (∀ l ∈ [lineT7, lineA7], goodLine l) ∧
    outIds (renumberFile [lineT7, lineA7]) = [0] ∧
    (outIds (renumberFile [lineT7, lineA7])).head? ≠ some 1 := by decide

/-- Claim C2 (amended): for a fixed-column file (ATOM/TER lines reach
column 22, at most 9999 lines) containing no TER records (the documented
TER asymmetry can otherwise suppress increments), the residue numbers
written into the ATOM lines start at 1, move in steps of 0 or +1, and step
exactly when the original field changes, so they form a contiguous
sequence from 1 following the original identifiers' order of appearance;
in particular original ids `5,5,5,9,9,12` are rewritten to `1,1,1,2,2,3`. -/
theorem claim_C2 (ls : List (List Char)) (hg : ∀ l ∈ ls, goodLine l)
    (hter : ∀ l ∈ ls, isTerLine l = false) (hb : ls.length ≤ 9999) :
    (atomFields ls ≠ [] → (outIds (renumberFile ls)).head? = some 1) ∧
    List.Chain' incStep (outIds (renumberFile ls)) ∧
    List.Chain' stepRel ((atomFields ls).zip (outIds (renumberFile ls))) ∧
    outIds (renumberFile [lineA5, lineA5, lineA5, lineA9, lineA9, lineA12]) =
      [1, 1, 1, 2, 2, 3] := by
  have hglue : outIds (renumberFile ls) = resetIds none 0 (atomFields ls) :=
    outIds_renumber_noTer ls none 0 hg hter (by omega)
  refine ⟨?_, ?_, ?_, by decide⟩
  · intro hne
    rw [hglue]
    cases hAF : atomFields ls with
    | nil => exact absurd hAF hne
    | cons f fs => rw [resetIds_head]; rfl
  · rw [hglue]; exact resetIds_incChain _
  · rw [hglue]; exact resetIds_chain' _

/-- Claim C2 witness: the amended theorem applied to the file of the
claim's own scenario (original ids 5,5,5,9,9,12). -/
theorem claim_C2_witness :
    (∀ l ∈ [lineA5, lineA5, lineA5, lineA9, lineA9, lineA12], goodLine l) ∧
    (∀ l ∈ [lineA5, lineA5, lineA5, lineA9, lineA9, lineA12], isTerLine l = false) ∧
    outIds (renumberFile [lineA5, lineA5, lineA5, lineA9, lineA9, lineA12]) =
      [1, 1, 1, 2, 2, 3] ∧
    List.Chain' incStep
      (outIds (renumberFile [lineA5, lineA5, lineA5, lineA9, lineA9, lineA12])) :=
  ⟨by decide, by decide,
    (claim_C2 [lineA5, lineA5, lineA5, lineA9, lineA9, lineA12]
      (by decide) (by decide) (by decide)).2.2.2,
    (claim_C2 [lineA5, lineA5, lineA5, lineA9, lineA9, lineA12]
      (by decide) (by decide) (by decide)).2.1⟩

/-- Claim C3: for a fixed-column input file (every ATOM/TER line reaches
column 22 and there are at most 9999 lines, so the counter text fits its
4-character span), renumbering preserves the line count, preserves which
lines are ATOM and TER records, passes every other line through
byte-identical, and rewrites an ATOM/TER line only inside columns 23-26,
where a right-justified 4-character counter text is placed. -/
theorem claim_C3 (ls : List (List Char)) (hg : ∀ l ∈ ls, goodLine l)
    (hb : ls.length ≤ 9999) :
    (renumberFile ls).length = ls.length ∧
    List.Forall₂ renumRel ls (renumberFile ls) := by
  have h := renumber_forall₂ ls none 0 hg (by omega)
  exact ⟨h.length_eq.symm, h⟩

/-- Claim C3 witness: the theorem applied to a concrete three-line file
with an ATOM record, a TER record, and a REMARK record. -/
theorem claim_C3_witness :
    (∀ l ∈ [lineA5, lineT7, lineRemark], goodLine l) ∧
    (renumberFile [lineA5, lineT7, lineRemark]).length =
      [lineA5, lineT7, lineRemark].length ∧
    List.Forall₂ renumRel [lineA5, lineT7, lineRemark]
      (renumberFile [lineA5, lineT7, lineRemark]) :=
  ⟨by decide,
    (claim_C3 [lineA5, lineT7, lineRemark] (by decide) (by decide)).1,
    (claim_C3 [lineA5, lineT7, lineRemark] (by decide) (by decide)).2⟩

/-- Claim C4: a TER line always has its residue-number field rewritten with
the current value of the output counter, the counter is never incremented
by a TER line, and the current identifier becomes the TER line's field
value (an update exactly when it differed), as the single equation shows
for every prior state. -/
theorem claim_C4 (cur : Option (List Char)) (n : Nat) (l : List Char)
    (rest : List (List Char)) (ht : isTerLine l = true) :
    renumber cur n (l :: rest) =
      putField l (rjust 4 (natToChars n)) :: renumber (some (resField l)) n rest :=
  renumber_ter cur n l rest ht

/-- Claim C4 witness: the theorem applied to a concrete TER line whose
field `   7` differs from the current identifier `   5`, with counter 3:
the line is rewritten with 3 and the counter stays 3. -/
theorem claim_C4_witness :
    isTerLine lineT7 = true ∧
    renumber (some (resField lineA5)) 3 [lineT7] =
      [putField lineT7 (rjust 4 (natToChars 3))] :=
  ⟨by decide, claim_C4 (some (resField lineA5)) 3 lineT7 [] (by decide)⟩

/-- Claim C5 counterexample: renumbering is not idempotent on every file.
On the single short line `ATOM` the field slice lies past the end of the
line, so each pass appends four more characters: the first pass yields
`ATOM   1` and the second `ATOM   1   1`. -/
theorem claim_C5_cex :
    renumberFile (renumberFile [lineAtomBare]) ≠ renumberFile [lineAtomBare] := by
  decide

/-- Claim C5 (amended): renumbering is idempotent on every fixed-column
file: if every ATOM/TER line reaches column 22 and the file has at most
9999 lines, a second pass reproduces the first pass's output exactly. -/
theorem claim_C5 (ls : List (List Char)) (hg : ∀ l ∈ ls, goodLine l)
    (hb : ls.length ≤ 9999) :
    renumberFile (renumberFile ls) = renumberFile ls :=
  renumber_idem_aux ls none none 0 (Or.inl ⟨rfl, rfl⟩) hg (by omega)

/-- Claim C5 witness: the amended theorem applied to a concrete good file
with ATOM and TER records. -/
theorem claim_C5_witness :
    (∀ l ∈ [lineA5, lineT7, lineA9], goodLine l) ∧
    renumberFile (renumberFile [lineA5, lineT7, lineA9]) =
      renumberFile [lineA5, lineT7, lineA9] :=
  ⟨by decide, claim_C5 [lineA5, lineT7, lineA9] (by decide) (by decide)⟩

/-- Claim C8 counterexample: an unparseable residue-number field is not
always treated as differing: the comparison is plain string equality, so
the second ATOM line with field `xxxx` equals the current identifier and
does not increment the counter (both lines are written with 1, where the
claim predicts 2 for the second). -/
theorem claim_C8_cex :
    intText (resField lineAxxxx) = false ∧
    outIds (renumberFile [lineAxxxx, lineAxxxx]) = [1, 1] ∧
    renumberFile [lineAxxxx, lineAxxxx] =
      [putField lineAxxxx (rjust 4 (natToChars 1)),
        putField lineAxxxx (rjust 4 (natToChars 1))] := by decide

/-- Claim C8 (amended): an ATOM line never raises, whatever its field
holds: the field is compared as a raw string, the counter increments
exactly when the field differs from the current identifier, and in
particular any field (parseable or not) that differs from the current
identifier forces an increment. -/
theorem claim_C8 (cur : Option (List Char)) (n : Nat) (l : List Char)
    (rest : List (List Char)) (ha : isAtomLine l = true) :
    renumber cur n (l :: rest) =
      putField l (rjust 4 (natToChars (if some (resField l) = cur then n else n + 1))) ::
        renumber (some (resField l)) (if some (resField l) = cur then n else n + 1) rest ∧
    (some (resField l) ≠ cur →
      renumber cur n (l :: rest) =
        putField l (rjust 4 (natToChars (n + 1))) ::
          renumber (some (resField l)) (n + 1) rest) := by
  refine ⟨renumber_atom cur n l rest ha, ?_⟩
  intro hne
  rw [renumber_atom cur n l rest ha, if_neg hne]

/-- Claim C8 witness: the amended theorem applied to the first occurrence
of the unparseable field `xxxx`, which differs from the initial `None`
identifier and forces the increment 0 to 1. -/
theorem claim_C8_witness :
    isAtomLine lineAxxxx = true ∧
    renumber none 0 [lineAxxxx] = [putField lineAxxxx (rjust 4 (natToChars 1))] :=
  ⟨by decide, (claim_C8 none 0 lineAxxxx [] (by decide)).2 (by simp)⟩

/-- Claim C10 counterexample: for a 24-character ATOM line the counter text
is not appended after the line's entire content: the two bytes at columns
23-24 are overwritten (the output is `take 22` of the line followed by the
counter text). -/
theorem claim_C10_cex :
    isAtomLine lineA24 = true ∧ lineA24.length = 24 ∧
    renumberFile [lineA24] ≠ [lineA24 ++ rjust 4 (natToChars 1)] ∧
    renumberFile [lineA24] = [lineA24.take 22 ++ rjust 4 (natToChars 1)] := by decide

/-- Claim C10 (amended): for every ATOM or TER line of at most 22
characters (e.g. a bare `TER` line with its terminator), the counter text
is appended after the line's entire existing content, terminator included,
instead of rewriting columns 23-26, and the output line's length differs
from the input line's length. -/
theorem claim_C10 (cur : Option (List Char)) (n : Nat) (l : List Char)
    (rest : List (List Char)) (hshort : l.length ≤ 22) :
    (isAtomLine l = true →
      renumber cur n (l :: rest) =
        (l ++ rjust 4 (natToChars (if some (resField l) = cur then n else n + 1))) ::
          renumber (some (resField l)) (if some (resField l) = cur then n else n + 1) rest ∧
      (l ++ rjust 4 (natToChars (if some (resField l) = cur then n else n + 1))).length ≠
        l.length) ∧
    (isTerLine l = true →
      renumber cur n (l :: rest) =
        (l ++ rjust 4 (natToChars n)) :: renumber (some (resField l)) n rest ∧
      (l ++ rjust 4 (natToChars n)).length ≠ l.length) := by
  constructor
  · intro ha
    rw [renumber_atom cur n l rest ha, putField_short hshort]
    refine ⟨rfl, ?_⟩
    rw [List.length_append, rjust_length]
    omega
  · intro ht
    rw [renumber_ter cur n l rest ht, putField_short hshort]
    refine ⟨rfl, ?_⟩
    rw [List.length_append, rjust_length]
    omega

/-- Claim C10 witness: the amended theorem applied to the bare 4-character
line `ATOM` and to a `TER` line carrying its newline terminator. -/
theorem claim_C10_witness :
    lineAtomBare.length ≤ 22 ∧
    (renumber none 0 [lineAtomBare] =
      (lineAtomBare ++
        rjust 4 (natToChars (if some (resField lineAtomBare) = none then 0 else 0 + 1))) ::
        renumber (some (resField lineAtomBare))
          (if some (resField lineAtomBare) = none then 0 else 0 + 1) [] ∧
      (lineAtomBare ++
        rjust 4 (natToChars (if some (resField lineAtomBare) = none then 0 else 0 + 1))).length ≠
        lineAtomBare.length) ∧
    (renumber (some (resField lineA5)) 2 [lineTerNl] =
      (lineTerNl ++ rjust 4 (natToChars 2)) ::
        renumber (some (resField lineTerNl)) 2 [] ∧
      (lineTerNl ++ rjust 4 (natToChars 2)).length ≠ lineTerNl.length) :=
  ⟨by decide,
    (claim_C10 none 0 lineAtomBare [] (by decide)).1 (by decide),
    (claim_C10 (some (resField lineA5)) 2 lineTerNl [] (by decide)).2 (by decide)⟩

end RenumberClaims

section SegmenterClaims

/-- Claim C1 counterexample: the window-start counter is zeroed once per
file, not per chain, so the property fails for chains after the first: in a
file holding two 9-residue chains the first chain emits the single window
`[1]` while the second chain, although of length 9, emits no window at all
(the claim predicts `9 - 8 = 1` window for it). -/
theorem claim_C1_cex :
    chain9.length = 9 ∧
    segmentFile [chain9, chain9] = [[1], []] ∧
    ((segmentFile [chain9, chain9]).getD 1 []).length ≠ chain9.length - 8 := by decide

/-- Claim C1 (amended): for the first chain the per-file counter processes
(the counter is not reset between chains), a chain with residue count
L ≥ 9 emits exactly L-8 windows, one for each start 1..L-8; and when the
chain's original numbering is the contiguous 1..L (so ids coincide with
ordinals), every emitted window holds exactly 9 residues and consecutive
windows share exactly 8 residues. -/
theorem claim_C1 (chain : List Residue) (rest : List (List Residue))
    (h9 : 9 ≤ chain.length) :
    (segmentFile (chain :: rest)).head? = some (chainLoop chain.length 0 chain) ∧
    chainLoop chain.length 0 chain = List.range' 1 (chain.length - 8) ∧
    (chainLoop chain.length 0 chain).length = chain.length - 8 ∧
    (chain.map Residue.resseq = (List.range' 1 chain.length).map (fun i : Nat => (i : Int)) →
      (∀ s ∈ chainLoop chain.length 0 chain, (windowFile chain s).length = 9) ∧
      (∀ s, s ∈ chainLoop chain.length 0 chain → s + 1 ∈ chainLoop chain.length 0 chain →
        ((windowFile chain s).filter
          (fun r => decide (r ∈ windowFile chain (s + 1)))).length = 8)) := by
  have hCL : chainLoop chain.length 0 chain = List.range' 1 (chain.length - 8) := by
    simpa using chainLoop_eq chain 0 chain.length (by omega)
  refine ⟨rfl, hCL, by rw [hCL, List.length_range'], ?_⟩
  intro hmap
  constructor
  · intro s hs
    rw [hCL, List.mem_range'] at hs
    obtain ⟨j, hj, rfl⟩ := hs
    have hP : accept_residue ((1 + 1 * j : Nat) : Int) (((1 + 1 * j : Nat) : Int) + 8) =
        (fun r => decide (((1 + 1 * j : Nat) : Int) ≤ r.resseq) &&
          decide (r.resseq ≤ ((1 + 1 * j + 8 : Nat) : Int))) := by
      funext r
      rw [accept_residue, Bool.eq_iff_iff]
      simp only [Bool.and_eq_true, decide_eq_true_eq]
      push_cast
      omega
    have hlen := filter_length_of_contig chain chain.length (1 + 1 * j) (1 + 1 * j + 8)
      hmap _ hP (by omega) (by omega) (by omega)
    simp only [windowFile, selectChain]
    omega
  · intro s hs hs1
    rw [hCL, List.mem_range'] at hs hs1
    obtain ⟨j, hj, hsj⟩ := hs
    obtain ⟨k, hk, hsk⟩ := hs1
    rw [windowFile_overlap]
    have hP : (fun r => accept_residue ((s + 1 : Nat) : Int) (((s + 1 : Nat) : Int) + 8) r &&
        accept_residue (s : Int) ((s : Int) + 8) r) =
        (fun r => decide (((s + 1 : Nat) : Int) ≤ r.resseq) &&
          decide (r.resseq ≤ ((s + 8 : Nat) : Int))) := by
      funext r
      rw [accept_residue, accept_residue, Bool.eq_iff_iff]
      simp only [Bool.and_eq_true, decide_eq_true_eq]
      push_cast
      constructor
      · intro h
        exact ⟨h.1.1, h.2.2⟩
      · intro h
        exact ⟨⟨h.1, by omega⟩, by omega, h.2⟩
    have hlen := filter_length_of_contig chain chain.length (s + 1) (s + 8)
      hmap _ hP (by omega) (by omega) (by omega)
    omega

/-- Claim C1 witness: the amended theorem applied to a single 10-residue
chain numbered 1..10 (its hypotheses discharged by computation). -/
theorem claim_C1_witness :
    9 ≤ chain10.length ∧
    (segmentFile [chain10]).head? = some (chainLoop chain10.length 0 chain10) ∧
    chainLoop chain10.length 0 chain10 = List.range' 1 (chain10.length - 8) ∧
    (chain10.map Residue.resseq =
        (List.range' 1 chain10.length).map (fun i : Nat => (i : Int)) →
      (∀ s ∈ chainLoop chain10.length 0 chain10, (windowFile chain10 s).length = 9) ∧
      (∀ s, s ∈ chainLoop chain10.length 0 chain10 →
        s + 1 ∈ chainLoop chain10.length 0 chain10 →
        ((windowFile chain10 s).filter
          (fun r => decide (r ∈ windowFile chain10 (s + 1)))).length = 8)) :=
  ⟨by decide, (claim_C1 chain10 [] (by decide)).1, (claim_C1 chain10 [] (by decide)).2.1,
    (claim_C1 chain10 [] (by decide)).2.2.2⟩

/-- Claim C6: a chain with fewer than 9 residues emits no window, whatever
value the carried start counter holds when the chain is reached; the loop
breaks at the first start with start + 8 beyond the length, so every
emitted start satisfies start + 8 ≤ length and no partial tail window is
ever emitted. -/
theorem claim_C6 (chain : List Residue) (s : Nat) :
    (chain.length < 9 → chainLoop chain.length s chain = []) ∧
    (∀ t ∈ chainLoop chain.length s chain, t + 8 ≤ chain.length) := by
  have hCL : chainLoop chain.length s chain =
      List.range' (s + 1) (min (chain.length - 8 - s) chain.length) :=
    chainLoop_eq' chain s chain.length
  constructor
  · intro h9
    rw [hCL, show min (chain.length - 8 - s) chain.length = 0 by omega]
    rfl
  · intro t ht
    rw [hCL, List.mem_range'] at ht
    obtain ⟨j, hj, rfl⟩ := ht
    omega

/-- Claim C6 witness: a 5-residue chain emits no window. -/
theorem claim_C6_witness :
    chain5.length < 9 ∧ chainLoop chain5.length 0 chain5 = [] :=
  ⟨by decide, (claim_C6 chain5 0).1 (by decide)⟩

/-- Claim C7: the inner 8-fold repetition writes the identical window to
the identical path on every iteration, so the resulting file store equals
the store after a single write of that window: the repetition has no
observable effect on the final file state. -/
theorem claim_C7 (chain : List Residue) (s : Nat)
    (σ : Nat → Option (List Residue)) :
    innerWriteLoop chain s σ = writeFile σ s (windowFile chain s) := by
  have ww : ∀ σ' : Nat → Option (List Residue),
      writeFile (writeFile σ' s (windowFile chain s)) s (windowFile chain s) =
        writeFile σ' s (windowFile chain s) := by
    intro σ'
    funext q
    by_cases hq : q = s <;> simp [writeFile, hq]
  have hr : List.range' s 8 = [s, s + 1, s + 2, s + 3, s + 4, s + 5, s + 6, s + 7] := by
    simp [List.range'_concat, List.range'_succ]
  rw [innerWriteLoop, hr]
  simp only [List.foldl_cons, List.foldl_nil]
  rw [ww, ww, ww, ww, ww, ww, ww]

/-- Claim C9: the Segmenter's window selection is by original residue
sequence identifier, not by ordinal position: a residue lies in the window
file for `start` exactly when it belongs to the chain and its original id
lies in `[start, start + 8]`; consequently, for a chain of 11 residues
numbered from 100, the window for start 1 is empty and in particular does
not hold the 9 residues at ordinals 1..9. -/
theorem claim_C9 :
    (∀ (chain : List Residue) (s : Nat) (r : Residue),
      r ∈ windowFile chain s ↔
        r ∈ chain ∧ (s : Int) ≤ r.resseq ∧ r.resseq ≤ (s : Int) + 8) ∧
    9 ≤ chainOff.length ∧
    windowFile chainOff 1 = [] ∧
    chainOff.take 9 ≠ [] := by
  refine ⟨?_, by decide, by decide, by decide⟩
  intro chain s r
  rw [windowFile, selectChain, List.mem_filter, accept_residue]
  simp [and_assoc]

end SegmenterClaims

end PdbUtils
